import Mathlib

/-!
Shallow embedding of `ClatShield(1.00).py`, a command-line password
generator.  Pure functions of the script become Lean functions; the
cryptographically random draws of `secrets` are modelled by an explicit
tape of natural numbers consumed left to right (each draw of
`secrets.choice(pool)` reads one number `n` and picks `pool[n % len(pool)]`,
and `secrets.SystemRandom().shuffle` is the Fisher–Yates loop of
`random.shuffle`, reading one number per iteration).  A run that exhausts
the tape returns `none`; the real program always has more randomness, so
terminating runs of the script correspond exactly to `some` results on
sufficiently long tapes.
-/

namespace ClatShield

/-- `string.ascii_lowercase`. -/
def ascii_lowercase : List Char := "abcdefghijklmnopqrstuvwxyz".toList

/-- `string.ascii_uppercase`. -/
def ascii_uppercase : List Char := "ABCDEFGHIJKLMNOPQRSTUVWXYZ".toList

/-- `string.digits`. -/
def digits : List Char := "0123456789".toList

/-- The special-character pool literal of `generate_random_password`
(the two braces are written with escapes). -/
def special_chars : List Char := "!@#$%^&*()-_=+[]\x7b\x7d|;:,.<>?/\\".toList

/-- The white-space set of Python's `str.strip()` with no argument
(CPython's `Py_UNICODE_ISSPACE`): ASCII 0x09–0x0D (tab, LF, VT, FF, CR),
0x1C–0x1F, space, NEL 0x85, and the Unicode space characters NBSP, Ogham
space, 0x2000–0x200A, line/paragraph separator, NNBSP, MMSP and
ideographic space. -/
def pyIsSpace (c : Char) : Bool :=
  decide ((0x09 ≤ c.toNat ∧ c.toNat ≤ 0x0D) ∨
    (0x1C ≤ c.toNat ∧ c.toNat ≤ 0x20) ∨
    c.toNat = 0x85 ∨ c.toNat = 0xA0 ∨ c.toNat = 0x1680 ∨
    (0x2000 ≤ c.toNat ∧ c.toNat ≤ 0x200A) ∨
    c.toNat = 0x2028 ∨ c.toNat = 0x2029 ∨ c.toNat = 0x202F ∨
    c.toNat = 0x205F ∨ c.toNat = 0x3000)

/-- Python's `str.strip()` (no argument): drop Python white space from
both ends. -/
def pyStrip (l : List Char) : List Char :=
  ((l.dropWhile pyIsSpace).reverse.dropWhile pyIsSpace).reverse

/-- Python's `str.lower()`, restricted to the ASCII case mapping.  This is
extensionally faithful for the comparisons against "y"/"yes"/"n"/"no"
below: A–Z are lowered exactly as in Python, and no character outside
A–Z/a-z is lowered by Python to any of the letters y, e, s, n, o (the only
non-ASCII character Python lowers into ASCII is the Kelvin sign 0x212A,
which lowers to k), so both sides classify every string identically. -/
def pyLower (l : List Char) : List Char := l.map Char.toLower

/-- The test `answer.strip().lower() in ["y", "yes"]` of `get_bool_input`. -/
def isYesAnswer (answer : String) : Prop :=
  pyLower (pyStrip answer.data) ∈ [['y'], ['y', 'e', 's']]

/-- The test `answer.strip().lower() in ["n", "no"]` of `get_bool_input`. -/
def isNoAnswer (answer : String) : Prop :=
  pyLower (pyStrip answer.data) ∈ [['n'], ['n', 'o']]

instance (a : String) : Decidable (isYesAnswer a) :=
  inferInstanceAs (Decidable (pyLower (pyStrip a.data) ∈ [['y'], ['y', 'e', 's']]))

instance (a : String) : Decidable (isNoAnswer a) :=
  inferInstanceAs (Decidable (pyLower (pyStrip a.data) ∈ [['n'], ['n', 'o']]))

/-- `get_bool_input`, line 5: the pure part, taking the string read from
stdin, stripped and lowercased, then compared against the yes and no
answer lists. -/
def get_bool_input (answer : String) (default : Bool) : Bool :=
  if isYesAnswer answer then true
  else if isNoAnswer answer then false
  else default

/-- The flag-reading step of `main` (lines 110–114): each boolean flag is
obtained by `get_bool_input` from the user's answer, with default `True`
for the four character-class flags and `False` for `require_each`. -/
def main_read_flags (lowAns upAns digAns specAns reqAns : String) :
    Bool × Bool × Bool × Bool × Bool :=
  (get_bool_input lowAns true,
   get_bool_input upAns true,
   get_bool_input digAns true,
   get_bool_input specAns true,
   get_bool_input reqAns false)

/-- `calculate_search_space_size`, line 34.  Python's `int` is
arbitrary-precision, modelled by `Int`; the exponent is positive in the
non-zero branch, so `Int.toNat` is exact. -/
def calculate_search_space_size (length : Int) (all_chars : List Char) : Int :=
  if all_chars.isEmpty ∨ length ≤ 0 then 0
  else (all_chars.length : Int) ^ length.toNat

/-- `calculate_entropy`, line 18, over ideal reals: the frequency table
`freq` has one entry per distinct character (`password.dedup`) whose count
is `password.count c`, and the loop accumulates `-= p * log2 p`. -/
noncomputable def calculate_entropy (password : String) : ℝ :=
  if password.data = [] then 0
  else
    -((password.data.dedup.map (fun c =>
        let p : ℝ := (password.data.count c : ℝ) / (password.data.length : ℝ)
        p * Real.logb 2 p)).sum)

/-- Modelled from the spec (§4.1): Shannon entropy in bits, "for each
distinct character, let p = count/length; entropy = −Σ p·log2(p)". -/
noncomputable def shannonEntropy (password : String) : ℝ :=
  -(∑ c in password.data.toFinset,
      ((password.data.count c : ℝ) / (password.data.length : ℝ)) *
        Real.logb 2 ((password.data.count c : ℝ) / (password.data.length : ℝ)))

/-- The configuration argument list of `generate_random_password`. -/
structure Config where
  length : Int
  use_lower : Bool
  use_upper : Bool
  use_digits : Bool
  use_special : Bool
  require_each : Bool
  deriving DecidableEq

/-- The three `ValueError`s `generate_random_password` can raise. -/
inductive GenError where
  | invalidLength
  | noClasses
  | tooShortForRequirement
  deriving DecidableEq

/-- The `pools` list built on lines 58–65, in source order. -/
def pools (cfg : Config) : List (List Char) :=
  (if cfg.use_lower then [ascii_lowercase] else []) ++
  (if cfg.use_upper then [ascii_uppercase] else []) ++
  (if cfg.use_digits then [digits] else []) ++
  (if cfg.use_special then [special_chars] else [])

/-- `secrets.choice(l)` given the random number `n`: the uniformly chosen
index is `n % l.length`.  Meaningful only for nonempty `l` (Python raises
on an empty sequence); the default is never reached in use. -/
def choice (l : List Char) (n : Nat) : Char :=
  l.getD (n % l.length) 'a'

/-- The seeding loop `for pool in pools: password_chars.append(secrets.choice(pool))`
(lines 80–82), consuming one tape entry per pool.  `none` when the tape
runs out. -/
def seedEach : List (List Char) → List Nat → Option (List Char × List Nat)
  | [], tape => some ([], tape)
  | _ :: _, [] => none
  | p :: ps, n :: tape =>
    match seedEach ps tape with
    | none => none
    | some (cs, rest) => some (choice p n :: cs, rest)

/-- The fill loop of lines 84–87: while the password is shorter than
`target`, draw a character and append it unless it equals the current last
character.  One tape entry per draw; `none` when the tape runs out. -/
def fillLoop (all : List Char) (target : Nat) (tape : List Nat)
    (acc : List Char) : Option (List Char × List Nat) :=
  if target ≤ acc.length then some (acc, tape)
  else
    match tape with
    | [] => none
    | n :: rest =>
      if acc.getLast? = some (choice all n) then fillLoop all target rest acc
      else fillLoop all target rest (acc ++ [choice all n])

/-- `x[i], x[j] = x[j], x[i]` on a list. -/
def listSwap (l : List Char) (i j : Nat) : List Char :=
  match l.get? i, l.get? j with
  | some a, some b => (l.set i b).set j a
  | _, _ => l

/-- The body of `random.shuffle` (used by `SystemRandom().shuffle`):
`for i in reversed(range(1, len(x))): j = randbelow(i+1); swap x[i], x[j]`.
`i` counts down from `l.length - 1` to `1`; each iteration reads one tape
entry `n` and takes `j = n % (i+1)`. -/
def fyAux (l : List Char) (i : Nat) (tape : List Nat) :
    Option (List Char × List Nat) :=
  match i with
  | 0 => some (l, tape)
  | i' + 1 =>
    match tape with
    | [] => none
    | n :: rest => fyAux (listSwap l (i' + 1) (n % (i' + 2))) i' rest

/-- `secrets.SystemRandom().shuffle(password_chars)` (line 89). -/
def fisherYatesShuffle (l : List Char) (tape : List Nat) :
    Option (List Char × List Nat) :=
  fyAux l (l.length - 1) tape

/-- Lines 79–87 of `generate_random_password`: build `password_chars`
before the final shuffle (optional seeding, then the fill loop over
`all_chars = "".join(pools)`). -/
def assemble (cfg : Config) (tape : List Nat) :
    Option (List Char × List Nat) :=
  Option.bind
    (if cfg.require_each then seedEach (pools cfg) tape else some ([], tape))
    (fun st => fillLoop (pools cfg).flatten cfg.length.toNat st.2 st.1)

/-- Lines 79–90: assemble, shuffle, and `"".join` the result. -/
def genBody (cfg : Config) (tape : List Nat) : Option String :=
  Option.bind (assemble cfg tape) (fun ft =>
    Option.bind (fisherYatesShuffle ft.1 ft.2)
      (fun st => some (String.mk st.1)))

/-- `generate_random_password`, lines 43–90: the three validation checks
in source order, then the generation body. -/
def generate_random_password (cfg : Config) (tape : List Nat) :
    Except GenError (Option String) :=
  if cfg.length < 1 then .error .invalidLength
  else if pools cfg = [] then .error .noClasses
  else if cfg.require_each = true ∧ cfg.length < ((pools cfg).length : Int) then
    .error .tooShortForRequirement
  else .ok (genBody cfg tape)

/-! ## Basic facts about the pools -/

theorem pools_ne_nil (cfg : Config)
    (h : cfg.use_lower = true ∨ cfg.use_upper = true ∨
         cfg.use_digits = true ∨ cfg.use_special = true) :
    pools cfg ≠ [] := by
  obtain ⟨len, l, u, d, s, r⟩ := cfg
  cases l <;> cases u <;> cases d <;> cases s <;> simp_all [pools]

theorem mem_pools (cfg : Config) (p : List Char) (hp : p ∈ pools cfg) :
    p = ascii_lowercase ∨ p = ascii_uppercase ∨ p = digits ∨ p = special_chars := by
  obtain ⟨len, l, u, d, s, r⟩ := cfg
  cases l <;> cases u <;> cases d <;> cases s <;> simp_all [pools] <;> tauto

theorem mem_pools_ne_nil (cfg : Config) (p : List Char) (hp : p ∈ pools cfg) :
    p ≠ [] := by
  rcases mem_pools cfg p hp with h | h | h | h <;> subst h <;>
    simp [ascii_lowercase, ascii_uppercase, digits, special_chars]

theorem pools_sublist (cfg : Config) :
    (pools cfg).Sublist
      [ascii_lowercase, ascii_uppercase, digits, special_chars] := by
  obtain ⟨len, l, u, d, s, r⟩ := cfg
  cases l <;> cases u <;> cases d <;> cases s <;>
    simp [pools, List.Sublist.cons, List.cons_sublist_cons, List.nil_sublist]

theorem four_pools_pairwise_disjoint :
    List.Pairwise (fun p q => ∀ c, c ∈ p → ¬ c ∈ q)
      [ascii_lowercase, ascii_uppercase, digits, special_chars] := by
  decide

theorem pools_pairwise_disjoint (cfg : Config) :
    (pools cfg).Pairwise (fun p q => ∀ c, c ∈ p → ¬ c ∈ q) :=
  four_pools_pairwise_disjoint.sublist (pools_sublist cfg)

/-! ## Lemmas about the random primitives -/

theorem choice_mem {l : List Char} (h : l ≠ []) (n : Nat) : choice l n ∈ l := by
  have hlt : n % l.length < l.length := Nat.mod_lt _ (List.length_pos.mpr h)
  unfold choice
  rw [List.getD_eq_getElem _ _ hlt]
  exact List.getElem_mem _

theorem seedEach_forall₂ :
    ∀ (ps : List (List Char)) (tape : List Nat) (seed : List Char)
      (rest : List Nat), (∀ p ∈ ps, p ≠ []) →
      seedEach ps tape = some (seed, rest) → List.Forall₂ (· ∈ ·) seed ps := by
  intro ps
  induction ps with
  | nil =>
    intro tape seed rest _ h
    have h' : some (([] : List Char), tape) = some (seed, rest) := h
    injection h' with h''
    injection h'' with h1 _
    rw [← h1]
    exact List.Forall₂.nil
  | cons p ps ih =>
    intro tape seed rest hne h
    cases tape with
    | nil => exact absurd h (by simp [seedEach])
    | cons n t =>
      rw [seedEach] at h
      cases hs : seedEach ps t with
      | none => rw [hs] at h; exact absurd h (by simp)
      | some v =>
        obtain ⟨cs, r⟩ := v
        rw [hs] at h
        injection h with h'
        injection h' with h1 _
        rw [← h1]
        exact List.Forall₂.cons
          (choice_mem (hne p (List.mem_cons_self p ps)) n)
          (ih t cs r (fun q hq => hne q (List.mem_cons_of_mem p hq)) hs)

/-! ## Unfolding equations for the fill loop -/

theorem fillLoop_done {all : List Char} {target : Nat} {tape : List Nat}
    {acc : List Char} (h : target ≤ acc.length) :
    fillLoop all target tape acc = some (acc, tape) := by
  rw [fillLoop.eq_def, if_pos h]

theorem fillLoop_nil {all : List Char} {target : Nat} {acc : List Char}
    (h : ¬ target ≤ acc.length) :
    fillLoop all target [] acc = none := by
  rw [fillLoop.eq_def, if_neg h]

theorem fillLoop_cons_eq {all : List Char} {target n : Nat} {rest : List Nat}
    {acc : List Char} (h : ¬ target ≤ acc.length)
    (he : acc.getLast? = some (choice all n)) :
    fillLoop all target (n :: rest) acc = fillLoop all target rest acc := by
  rw [fillLoop.eq_def, if_neg h]
  simp only [he, if_pos]

theorem fillLoop_cons_ne {all : List Char} {target n : Nat} {rest : List Nat}
    {acc : List Char} (h : ¬ target ≤ acc.length)
    (he : ¬ acc.getLast? = some (choice all n)) :
    fillLoop all target (n :: rest) acc =
      fillLoop all target rest (acc ++ [choice all n]) := by
  rw [fillLoop.eq_def, if_neg h]
  simp only [he, if_neg, if_false]

theorem fillLoop_length {all : List Char} {target : Nat} :
    ∀ (tape : List Nat) (acc res : List Char) (rest : List Nat),
      fillLoop all target tape acc = some (res, rest) →
      acc.length ≤ target → res.length = target := by
  intro tape
  induction tape with
  | nil =>
    intro acc res rest h hle
    by_cases hc : target ≤ acc.length
    · rw [fillLoop_done hc] at h
      injection h with h'
      injection h' with h1 _
      rw [← h1]; omega
    · rw [fillLoop_nil hc] at h
      exact absurd h (by simp)
  | cons n t ih =>
    intro acc res rest h hle
    by_cases hc : target ≤ acc.length
    · rw [fillLoop_done hc] at h
      injection h with h'
      injection h' with h1 _
      rw [← h1]; omega
    · by_cases he : acc.getLast? = some (choice all n)
      · rw [fillLoop_cons_eq hc he] at h
        exact ih acc res rest h hle
      · rw [fillLoop_cons_ne hc he] at h
        have : (acc ++ [choice all n]).length ≤ target := by
          simp; omega
        exact ih _ res rest h this

theorem fillLoop_mem {all : List Char} {target : Nat} :
    ∀ (tape : List Nat) (acc res : List Char) (rest : List Nat),
      fillLoop all target tape acc = some (res, rest) →
      ∀ c ∈ acc, c ∈ res := by
  intro tape
  induction tape with
  | nil =>
    intro acc res rest h c hc
    by_cases hcond : target ≤ acc.length
    · rw [fillLoop_done hcond] at h
      injection h with h'
      injection h' with h1 _
      rw [← h1]; exact hc
    · rw [fillLoop_nil hcond] at h
      exact absurd h (by simp)
  | cons n t ih =>
    intro acc res rest h c hc
    by_cases hcond : target ≤ acc.length
    · rw [fillLoop_done hcond] at h
      injection h with h'
      injection h' with h1 _
      rw [← h1]; exact hc
    · by_cases he : acc.getLast? = some (choice all n)
      · rw [fillLoop_cons_eq hcond he] at h
        exact ih acc res rest h c hc
      · rw [fillLoop_cons_ne hcond he] at h
        exact ih _ res rest h c (List.mem_append_left _ hc)

theorem fillLoop_chain' {all : List Char} {target : Nat} :
    ∀ (tape : List Nat) (acc res : List Char) (rest : List Nat),
      List.Chain' (· ≠ ·) acc →
      fillLoop all target tape acc = some (res, rest) →
      List.Chain' (· ≠ ·) res := by
  intro tape
  induction tape with
  | nil =>
    intro acc res rest hacc h
    by_cases hcond : target ≤ acc.length
    · rw [fillLoop_done hcond] at h
      injection h with h'
      injection h' with h1 _
      rw [← h1]; exact hacc
    · rw [fillLoop_nil hcond] at h
      exact absurd h (by simp)
  | cons n t ih =>
    intro acc res rest hacc h
    by_cases hcond : target ≤ acc.length
    · rw [fillLoop_done hcond] at h
      injection h with h'
      injection h' with h1 _
      rw [← h1]; exact hacc
    · by_cases he : acc.getLast? = some (choice all n)
      · rw [fillLoop_cons_eq hcond he] at h
        exact ih acc res rest hacc h
      · rw [fillLoop_cons_ne hcond he] at h
        refine ih _ res rest ?_ h
        rw [List.chain'_append]
        refine ⟨hacc, List.chain'_singleton _, ?_⟩
        intro x hx y hy
        simp only [List.head?_cons, Option.mem_def, Option.some.injEq] at hy
        intro hxy
        rw [Option.mem_def] at hx
        exact he (by rw [hx, hxy, hy])

/-! ## The shuffle is a permutation -/

theorem cons_set_perm :
    ∀ (xs : List Char) (k : Nat) (x b : Char), xs.get? k = some b →
      (b :: xs.set k x).Perm (x :: xs) := by
  intro xs
  induction xs with
  | nil => intro k x b hb; simp at hb
  | cons y t ih =>
    intro k x b hb
    cases k with
    | zero =>
      have hby : b = y := by simpa using hb.symm
      rw [hby]
      simpa using List.Perm.swap x y t
    | succ k' =>
      have hb' : t.get? k' = some b := by simpa using hb
      have e1 : b :: (y :: t).set (k' + 1) x = b :: y :: t.set k' x := by simp
      rw [e1]
      have p1 : (b :: y :: t.set k' x).Perm (y :: b :: t.set k' x) :=
        List.Perm.swap y b (t.set k' x)
      have p2 : (y :: b :: t.set k' x).Perm (y :: x :: t) :=
        (ih k' x b hb').cons y
      have p3 : (y :: x :: t).Perm (x :: y :: t) := List.Perm.swap x y t
      exact (p1.trans p2).trans p3

theorem set_set_perm :
    ∀ (l : List Char) (i j : Nat) (a b : Char),
      l.get? i = some a → l.get? j = some b →
      ((l.set i b).set j a).Perm l := by
  intro l
  induction l with
  | nil => intro i j a b hi _; simp at hi
  | cons x t ih =>
    intro i j a b hi hj
    cases i with
    | zero =>
      have ha : a = x := by simpa using hi.symm
      cases j with
      | zero =>
        have hb : b = x := by simpa using hj.symm
        rw [ha, hb]
        simp
      | succ k =>
        have hj' : t.get? k = some b := by simpa using hj
        rw [ha]
        have e : ((x :: t).set 0 b).set (k + 1) x = b :: t.set k x := by simp
        rw [e]
        exact cons_set_perm t k x b hj'
    | succ m =>
      cases j with
      | zero =>
        have hb : b = x := by simpa using hj.symm
        have hi' : t.get? m = some a := by simpa using hi
        rw [hb]
        have e : ((x :: t).set (m + 1) x).set 0 a = a :: t.set m x := by simp
        rw [e]
        exact cons_set_perm t m x a hi'
      | succ k =>
        have hi' : t.get? m = some a := by simpa using hi
        have hj' : t.get? k = some b := by simpa using hj
        have : ((x :: t).set (m + 1) b).set (k + 1) a =
            x :: (t.set m b).set k a := by simp
        rw [this]
        exact (ih m k a b hi' hj').cons x

theorem listSwap_perm (l : List Char) (i j : Nat) : (listSwap l i j).Perm l := by
  unfold listSwap
  cases hi : l.get? i with
  | none => exact List.Perm.refl l
  | some a =>
    cases hj : l.get? j with
    | none => exact List.Perm.refl l
    | some b => exact set_set_perm l i j a b hi hj

theorem fyAux_perm :
    ∀ (i : Nat) (l : List Char) (tape : List Nat) (res : List Char)
      (rest : List Nat), fyAux l i tape = some (res, rest) → res.Perm l := by
  intro i
  induction i with
  | zero =>
    intro l tape res rest h
    have h' : some (l, tape) = some (res, rest) := h
    injection h' with h''
    injection h'' with h1 _
    rw [← h1]
  | succ i' ih =>
    intro l tape res rest h
    cases tape with
    | nil => exact absurd h (by rw [fyAux]; simp)
    | cons n r =>
      have h' : fyAux (listSwap l (i' + 1) (n % (i' + 2))) i' r =
          some (res, rest) := h
      exact (ih _ r res rest h').trans (listSwap_perm l (i' + 1) (n % (i' + 2)))

theorem fisherYatesShuffle_perm {l : List Char} {tape : List Nat}
    {res : List Char} {rest : List Nat}
    (h : fisherYatesShuffle l tape = some (res, rest)) : res.Perm l :=
  fyAux_perm (l.length - 1) l tape res rest h

/-! ## Elimination lemmas for successful runs -/

theorem generate_ok_elim {cfg : Config} {tape : List Nat} {o : Option String}
    (h : generate_random_password cfg tape = .ok o) :
    ¬ cfg.length < 1 ∧ pools cfg ≠ [] ∧
      ¬ (cfg.require_each = true ∧ cfg.length < ((pools cfg).length : Int)) ∧
      genBody cfg tape = o := by
  unfold generate_random_password at h
  by_cases h1 : cfg.length < 1
  · rw [if_pos h1] at h; exact absurd h (by simp)
  rw [if_neg h1] at h
  by_cases h2 : pools cfg = []
  · rw [if_pos h2] at h; exact absurd h (by simp)
  rw [if_neg h2] at h
  by_cases h3 : cfg.require_each = true ∧
      cfg.length < ((pools cfg).length : Int)
  · rw [if_pos h3] at h; exact absurd h (by simp)
  rw [if_neg h3] at h
  exact ⟨h1, h2, h3, Except.ok.inj h⟩

theorem genBody_elim {cfg : Config} {tape : List Nat} {pw : String}
    (h : genBody cfg tape = some pw) :
    ∃ filled t2 shuffled t3,
      assemble cfg tape = some (filled, t2) ∧
      fisherYatesShuffle filled t2 = some (shuffled, t3) ∧
      pw.data = shuffled := by
  unfold genBody at h
  simp only [Option.bind_eq_some] at h
  obtain ⟨⟨filled, t2⟩, ha, ⟨shuffled, t3⟩, hs, h⟩ := h
  injection h with h'
  exact ⟨filled, t2, shuffled, t3, ha, hs, by rw [← h']⟩

theorem assemble_elim {cfg : Config} {tape : List Nat} {filled : List Char}
    {t2 : List Nat} (h : assemble cfg tape = some (filled, t2)) :
    ∃ seed t1,
      (if cfg.require_each then seedEach (pools cfg) tape
       else some ([], tape)) = some (seed, t1) ∧
      fillLoop (pools cfg).flatten cfg.length.toNat t1 seed =
        some (filled, t2) := by
  unfold assemble at h
  simp only [Option.bind_eq_some] at h
  obtain ⟨⟨seed, t1⟩, hs, hfill⟩ := h
  exact ⟨seed, t1, hs, hfill⟩

theorem seed_cases {cfg : Config} {tape : List Nat} {seed : List Char}
    {t1 : List Nat}
    (hs : (if cfg.require_each then seedEach (pools cfg) tape
           else some ([], tape)) = some (seed, t1)) :
    (cfg.require_each = true ∧ List.Forall₂ (· ∈ ·) seed (pools cfg)) ∨
    (cfg.require_each = false ∧ seed = []) := by
  cases hre : cfg.require_each with
  | false =>
    rw [hre] at hs
    simp only [Bool.false_eq_true, if_false, Option.some.injEq,
      Prod.mk.injEq] at hs
    exact Or.inr ⟨rfl, hs.1.symm⟩
  | true =>
    rw [hre] at hs
    simp only [if_true] at hs
    exact Or.inl ⟨rfl, seedEach_forall₂ _ _ _ _
      (fun p hp => mem_pools_ne_nil cfg p hp) hs⟩

theorem forall₂_exists_left {R : Char → List Char → Prop} :
    ∀ {l1 : List Char} {l2 : List (List Char)}, List.Forall₂ R l1 l2 →
      ∀ p ∈ l2, ∃ c ∈ l1, R c p := by
  intro l1 l2 hf
  induction hf with
  | nil => intro p hp; simp at hp
  | @cons a b l1' l2' hab _ ih =>
    intro p hp
    rcases List.mem_cons.mp hp with rfl | hp'
    · exact ⟨a, List.mem_cons_self a l1', hab⟩
    · obtain ⟨c, hc1, hc2⟩ := ih p hp'
      exact ⟨c, List.mem_cons_of_mem a hc1, hc2⟩

theorem chain'_ne_of_seed :
    ∀ (seed : List Char) (ps : List (List Char)),
      List.Forall₂ (· ∈ ·) seed ps →
      ps.Pairwise (fun p q => ∀ c, c ∈ p → ¬ c ∈ q) →
      List.Chain' (· ≠ ·) seed := by
  intro seed ps hf
  induction hf with
  | nil => intro _; exact List.chain'_nil
  | @cons a p l qs ha hrest ih =>
    intro hp
    rcases List.pairwise_cons.mp hp with ⟨hdisj, hq⟩
    refine List.chain'_cons'.mpr ⟨?_, ih hq⟩
    intro y hy hay
    cases hrest with
    | nil => simp at hy
    | @cons b q l' qs' hb _ =>
      simp only [List.head?_cons, Option.mem_def, Option.some.injEq] at hy
      refine hdisj q (List.mem_cons_self q qs') a ha ?_
      rw [hay, ← hy]
      exact hb

/-! ## C2: length of the generated password -/

/-- C2: for every configuration satisfying the preconditions (length ≥ 1,
at least one class flag, and length ≥ number of selected classes when
`require_each`), `generate_random_password` raises no error, and every
password it returns has exactly `length` characters. -/
theorem generate_ok_length (cfg : Config) (tape : List Nat)
    (hlen : 1 ≤ cfg.length)
    (hflag : cfg.use_lower = true ∨ cfg.use_upper = true ∨
             cfg.use_digits = true ∨ cfg.use_special = true)
    (hreq : cfg.require_each = true → ((pools cfg).length : Int) ≤ cfg.length) :
    (∀ e, generate_random_password cfg tape ≠ .error e) ∧
    (∀ pw, generate_random_password cfg tape = .ok (some pw) →
      (pw.length : Int) = cfg.length) := by
  have h1 : ¬ cfg.length < 1 := by omega
  have h2 : ¬ pools cfg = [] := pools_ne_nil cfg hflag
  have h3 : ¬ (cfg.require_each = true ∧
      cfg.length < ((pools cfg).length : Int)) := by
    rintro ⟨hr, hlt⟩
    have := hreq hr
    omega
  constructor
  · intro e he
    unfold generate_random_password at he
    rw [if_neg h1, if_neg h2, if_neg h3] at he
    exact absurd he (by simp)
  · intro pw hok
    obtain ⟨_, _, _, hbody⟩ := generate_ok_elim hok
    obtain ⟨filled, t2, shuffled, t3, hasm, hshuf, hdata⟩ := genBody_elim hbody
    obtain ⟨seed, t1, hs, hfill⟩ := assemble_elim hasm
    have hseedlen : seed.length ≤ cfg.length.toNat := by
      rcases seed_cases hs with ⟨hr, hf⟩ | ⟨_, hnil⟩
      · have hl := List.Forall₂.length_eq hf
        have := hreq hr
        omega
      · rw [hnil]; simp
    have hfl : filled.length = cfg.length.toNat :=
      fillLoop_length _ _ _ _ hfill hseedlen
    have hperm := fisherYatesShuffle_perm hshuf
    have hpl : pw.length = cfg.length.toNat := by
      rw [show pw.length = pw.data.length from rfl, hdata,
        hperm.length_eq, hfl]
    omega

/-- Witness for C2: length 1, all classes, `require_each` false. -/
theorem generate_ok_length_witness : (("a" : String).length : Int) = 1 := by
  have h := (generate_ok_length ⟨1, true, true, true, true, false⟩ [0]
    (by norm_num) (Or.inl rfl) (fun hr => by simp at hr)).2 "a" rfl
  exact h

/-! ## C3: coverage under require_each -/

/-- C3: when `require_each` is true, every password returned by
`generate_random_password` contains at least one character from each
selected class's pool. -/
theorem generate_requireEach_coverage (cfg : Config) (tape : List Nat)
    (pw : String) (hreq : cfg.require_each = true)
    (h : generate_random_password cfg tape = .ok (some pw)) :
    ∀ p ∈ pools cfg, ∃ c, c ∈ pw.data ∧ c ∈ p := by
  obtain ⟨_, _, _, hbody⟩ := generate_ok_elim h
  obtain ⟨filled, t2, shuffled, t3, hasm, hshuf, hdata⟩ := genBody_elim hbody
  obtain ⟨seed, t1, hs, hfill⟩ := assemble_elim hasm
  have hf : List.Forall₂ (· ∈ ·) seed (pools cfg) := by
    rcases seed_cases hs with ⟨_, hf⟩ | ⟨hr, _⟩
    · exact hf
    · simp [hr] at hreq
  intro p hp
  obtain ⟨c, hcseed, hcp⟩ := forall₂_exists_left hf p hp
  have hcfilled : c ∈ filled := fillLoop_mem _ _ _ _ hfill c hcseed
  have hcshuffled : c ∈ shuffled :=
    (fisherYatesShuffle_perm hshuf).mem_iff.mpr hcfilled
  exact ⟨c, by rw [hdata]; exact hcshuffled, hcp⟩

/-- Witness for C3: length 4, all four classes, `require_each` true; the
returned password "A0!a" has a character in each of the four pools. -/
theorem generate_requireEach_coverage_witness :
    (∃ c, c ∈ ("A0!a" : String).data ∧ c ∈ ascii_lowercase) ∧
    (∃ c, c ∈ ("A0!a" : String).data ∧ c ∈ ascii_uppercase) ∧
    (∃ c, c ∈ ("A0!a" : String).data ∧ c ∈ digits) ∧
    (∃ c, c ∈ ("A0!a" : String).data ∧ c ∈ special_chars) := by
  have h := generate_requireEach_coverage ⟨4, true, true, true, true, true⟩
    [0, 0, 0, 0, 0, 0, 0] "A0!a" rfl rfl
  exact ⟨h ascii_lowercase (by simp [pools]),
    h ascii_uppercase (by simp [pools]),
    h digits (by simp [pools]),
    h special_chars (by simp [pools])⟩

/-! ## C9: exact coverage at minimal length -/

/-- C9: when `require_each` is true and the length equals the number of
selected classes, the returned password is a permutation of a list with
exactly one character from each selected pool, in pool order. -/
theorem generate_min_length_exact_coverage (cfg : Config) (tape : List Nat)
    (pw : String) (hreq : cfg.require_each = true)
    (hlen : cfg.length = ((pools cfg).length : Int))
    (h : generate_random_password cfg tape = .ok (some pw)) :
    ∃ reps, List.Forall₂ (· ∈ ·) reps (pools cfg) ∧ pw.data.Perm reps := by
  obtain ⟨hl1, _, _, hbody⟩ := generate_ok_elim h
  obtain ⟨filled, t2, shuffled, t3, hasm, hshuf, hdata⟩ := genBody_elim hbody
  obtain ⟨seed, t1, hs, hfill⟩ := assemble_elim hasm
  have hf : List.Forall₂ (· ∈ ·) seed (pools cfg) := by
    rcases seed_cases hs with ⟨_, hf⟩ | ⟨hr, _⟩
    · exact hf
    · simp [hr] at hreq
  have hseedlen : seed.length = (pools cfg).length := hf.length_eq
  have hdone : fillLoop (pools cfg).flatten cfg.length.toNat t1 seed =
      some (seed, t1) := fillLoop_done (by omega)
  rw [hdone] at hfill
  injection hfill with hfill'
  injection hfill' with hfe _
  subst hfe
  refine ⟨seed, hf, ?_⟩
  rw [hdata]
  exact fisherYatesShuffle_perm hshuf

/-- Witness for C9: length 4 with all four classes and `require_each`;
"A0!a" is a permutation of one representative per pool. -/
theorem generate_min_length_exact_coverage_witness :
    ∃ reps, List.Forall₂ (· ∈ ·) reps
        (pools ⟨4, true, true, true, true, true⟩) ∧
      ("A0!a" : String).data.Perm reps :=
  generate_min_length_exact_coverage ⟨4, true, true, true, true, true⟩
    [0, 0, 0, 0, 0, 0, 0] "A0!a" rfl (by simp [pools]) rfl

/-! ## C10: the assembled list before the shuffle -/

/-- C10: every list `password_chars` assembled before the final shuffle
(seeded per-class representatives followed by the fill loop) has no two
adjacent equal characters: the class pools are pairwise disjoint and the
fill loop rejects a draw equal to the current last element. -/
theorem assemble_adjacent_distinct (cfg : Config) (tape : List Nat)
    (filled : List Char) (t2 : List Nat)
    (h : assemble cfg tape = some (filled, t2)) :
    List.Chain' (· ≠ ·) filled := by
  obtain ⟨seed, t1, hs, hfill⟩ := assemble_elim h
  have hchain : List.Chain' (· ≠ ·) seed := by
    rcases seed_cases hs with ⟨_, hf⟩ | ⟨_, hnil⟩
    · exact chain'_ne_of_seed seed (pools cfg) hf (pools_pairwise_disjoint cfg)
    · rw [hnil]; exact List.chain'_nil
  exact fillLoop_chain' _ _ _ _ hchain hfill

/-- Witness for C10: the digits-only run that assembles `['0', '1', '0']`. -/
theorem assemble_adjacent_distinct_witness :
    List.Chain' (· ≠ ·) ['0', '1', '0'] :=
  assemble_adjacent_distinct ⟨3, false, false, true, false, false⟩ [0, 1, 0]
    ['0', '1', '0'] [] rfl

/-! ## C5: search-space size -/

/-- C5: `calculate_search_space_size` returns 0 when the alphabet is empty
or the length is ≤ 0, and otherwise returns exactly `len(all_chars) ^ length`;
for a 62-character alphabet and length 8 the value is 218340105584896. -/
theorem calculate_search_space_size_spec :
    (∀ length : Int, calculate_search_space_size length [] = 0) ∧
    (∀ (length : Int) (all_chars : List Char), length ≤ 0 →
      calculate_search_space_size length all_chars = 0) ∧
    (∀ (length : Int) (all_chars : List Char), all_chars ≠ [] → 1 ≤ length →
      calculate_search_space_size length all_chars =
        (all_chars.length : Int) ^ length.toNat) ∧
    calculate_search_space_size 8 (ascii_lowercase ++ ascii_uppercase ++ digits) =
      218340105584896 := by
  refine ⟨?_, ?_, ?_, ?_⟩
  · intro len; simp [calculate_search_space_size]
  · intro len ac h; simp [calculate_search_space_size, h]
  · intro len ac hne hpos
    have h1 : ¬ ac.isEmpty = true := by simpa using hne
    have h2 : ¬ len ≤ 0 := by omega
    simp [calculate_search_space_size, h1, h2]
  · rfl

/-- Witness for C5 at concrete inputs. -/
theorem calculate_search_space_size_spec_witness :
    calculate_search_space_size (-3) ['a'] = 0 ∧
    calculate_search_space_size 2 ['a', 'b'] = 4 := by
  constructor
  · exact calculate_search_space_size_spec.2.1 (-3) ['a'] (by norm_num)
  · have h := calculate_search_space_size_spec.2.2.1 2 ['a', 'b']
      (by simp) (by norm_num)
    simpa using h

/-! ## C8: boolean prompts -/

/-- C8: `get_bool_input` returns `true` on a yes-answer, `false` on a
no-answer, and otherwise the prompt's default; `main` uses default `true`
for the four class-flag prompts and `false` for the require-each prompt,
so unrecognized answers yield flags `(true, true, true, true, false)`. -/
theorem get_bool_input_spec :
    (∀ (answer : String) (default : Bool),
      (isYesAnswer answer → get_bool_input answer default = true) ∧
      (isNoAnswer answer → get_bool_input answer default = false) ∧
      (¬ isYesAnswer answer → ¬ isNoAnswer answer →
        get_bool_input answer default = default)) ∧
    (∀ lowAns upAns digAns specAns reqAns : String,
      (∀ a ∈ [lowAns, upAns, digAns, specAns, reqAns],
        ¬ isYesAnswer a ∧ ¬ isNoAnswer a) →
      main_read_flags lowAns upAns digAns specAns reqAns =
        (true, true, true, true, false)) := by
  have hy : ∀ (answer : String) (default : Bool), isYesAnswer answer →
      get_bool_input answer default = true := by
    intro answer default h
    unfold get_bool_input
    rw [if_pos h]
  have hno : ∀ a : String, isNoAnswer a → ¬ isYesAnswer a := by
    intro a h hy'
    simp only [isYesAnswer, isNoAnswer, List.mem_cons, List.not_mem_nil,
      or_false] at h hy'
    rcases h with h | h <;> rcases hy' with hy' | hy' <;>
      rw [h] at hy' <;> simp at hy'
  have hn : ∀ (answer : String) (default : Bool), isNoAnswer answer →
      get_bool_input answer default = false := by
    intro answer default h
    unfold get_bool_input
    rw [if_neg (hno answer h), if_pos h]
  have hd : ∀ (answer : String) (default : Bool), ¬ isYesAnswer answer →
      ¬ isNoAnswer answer → get_bool_input answer default = default := by
    intro answer default h1 h2
    unfold get_bool_input
    rw [if_neg h1, if_neg h2]
  refine ⟨fun answer default => ⟨hy answer default, hn answer default,
    hd answer default⟩, ?_⟩
  intro a1 a2 a3 a4 a5 h
  simp only [List.mem_cons, List.not_mem_nil, or_false] at h
  have g1 := hd a1 true (h a1 (by tauto)).1 (h a1 (by tauto)).2
  have g2 := hd a2 true (h a2 (by tauto)).1 (h a2 (by tauto)).2
  have g3 := hd a3 true (h a3 (by tauto)).1 (h a3 (by tauto)).2
  have g4 := hd a4 true (h a4 (by tauto)).1 (h a4 (by tauto)).2
  have g5 := hd a5 false (h a5 (by tauto)).1 (h a5 (by tauto)).2
  simp [main_read_flags, g1, g2, g3, g4, g5]

/-- Witness for C8: a yes-answer, a no-answer, and an unrecognized answer,
plus the session-loop defaults on unrecognized input. -/
theorem get_bool_input_spec_witness :
    get_bool_input "Y" false = true ∧
    get_bool_input "\x0byes" false = true ∧
    get_bool_input " no " true = false ∧
    get_bool_input "maybe" true = true ∧
    main_read_flags "maybe" "maybe" "maybe" "maybe" "maybe" =
      (true, true, true, true, false) := by
  refine ⟨(get_bool_input_spec.1 "Y" false).1 (by decide),
    (get_bool_input_spec.1 "\x0byes" false).1 (by decide),
    (get_bool_input_spec.1 " no " true).2.1 (by decide),
    (get_bool_input_spec.1 "maybe" true).2.2 (by decide) (by decide),
    get_bool_input_spec.2 "maybe" "maybe" "maybe" "maybe" "maybe" ?_⟩
  intro a ha
  simp only [List.mem_cons, List.not_mem_nil, or_false] at ha
  rcases ha with rfl | rfl | rfl | rfl | rfl <;> exact ⟨by decide, by decide⟩

/-! ## C4: the no-character-classes error -/

/-- C4 counterexample: at length 0 with all four flags false, the code
raises the invalid-length error (the `length < 1` check runs first), not
the no-character-classes error the claim requires for every length. -/
theorem noClasses_error_not_raised_at_zero_length :
    generate_random_password ⟨0, false, false, false, false, false⟩ [] =
      .error .invalidLength ∧
    generate_random_password ⟨0, false, false, false, false, false⟩ [] ≠
      .error .noClasses := by
  refine ⟨rfl, fun h => ?_⟩
  rw [show generate_random_password ⟨0, false, false, false, false, false⟩ [] =
    .error .invalidLength from rfl] at h
  injection h with h'
  exact GenError.noConfusion h'

/-- C4 amended: for every length ≥ 1, if all four character-class flags
are false then `generate_random_password` fails with the
no-character-classes error. -/
theorem generate_noClasses_error_of_pos_length (cfg : Config) (tape : List Nat)
    (hlen : 1 ≤ cfg.length)
    (h : cfg.use_lower = false ∧ cfg.use_upper = false ∧
         cfg.use_digits = false ∧ cfg.use_special = false) :
    generate_random_password cfg tape = .error .noClasses := by
  obtain ⟨h1, h2, h3, h4⟩ := h
  have hp : pools cfg = [] := by simp [pools, h1, h2, h3, h4]
  have hl : ¬ cfg.length < 1 := by omega
  simp [generate_random_password, hl, hp]

/-- Witness for the amended C4. -/
theorem generate_noClasses_error_of_pos_length_witness :
    generate_random_password ⟨5, false, false, false, false, false⟩ [] =
      .error .noClasses :=
  generate_noClasses_error_of_pos_length ⟨5, false, false, false, false, false⟩
    [] (by norm_num) ⟨rfl, rfl, rfl, rfl⟩

/-! ## C7: the too-short-for-requirement error -/

/-- C7 counterexample: at length 0 with all four classes selected and
`require_each` true, the code raises the invalid-length error (the
`length < 1` check runs first), not the too-short error the claim
requires for lengths < 1. -/
theorem tooShort_error_not_raised_at_zero_length :
    generate_random_password ⟨0, true, true, true, true, true⟩ [] =
      .error .invalidLength ∧
    generate_random_password ⟨0, true, true, true, true, true⟩ [] ≠
      .error .tooShortForRequirement := by
  refine ⟨rfl, fun h => ?_⟩
  rw [show generate_random_password ⟨0, true, true, true, true, true⟩ [] =
    .error .invalidLength from rfl] at h
  injection h with h'
  exact GenError.noConfusion h'

/-- C7 amended: for every configuration with `require_each` true, at least
one class flag true, and `1 ≤ length <` number of selected classes,
`generate_random_password` fails with the too-short-for-requirement
error. -/
theorem generate_tooShort_error_of_pos_length (cfg : Config) (tape : List Nat)
    (hlen : 1 ≤ cfg.length)
    (hflag : cfg.use_lower = true ∨ cfg.use_upper = true ∨
             cfg.use_digits = true ∨ cfg.use_special = true)
    (hreq : cfg.require_each = true)
    (hshort : cfg.length < ((pools cfg).length : Int)) :
    generate_random_password cfg tape = .error .tooShortForRequirement := by
  have hl : ¬ cfg.length < 1 := by omega
  have hp : ¬ pools cfg = [] := pools_ne_nil cfg hflag
  simp [generate_random_password, hl, hp, hreq, hshort]

/-- Witness for the amended C7: length 1 with two classes selected. -/
theorem generate_tooShort_error_of_pos_length_witness :
    generate_random_password ⟨1, true, true, false, false, true⟩ [] =
      .error .tooShortForRequirement :=
  generate_tooShort_error_of_pos_length ⟨1, true, true, false, false, true⟩ []
    (by norm_num) (Or.inl rfl) rfl (by norm_num [pools])

/-! ## C1: adjacent characters of the returned password -/

/-- C1 (code bug): the docstring of `generate_random_password` promises
that no two consecutive characters are identical, but the final shuffle is
performed after the adjacent-distinct fill and is never re-checked.  On
the digits-only configuration of length 3 with random tape
`[0, 1, 0, 1, 1]`, the fill loop assembles `"010"` (adjacent-distinct) and
the shuffle returns `"001"`, which has two equal adjacent characters. -/
theorem shuffle_breaks_adjacent_distinct :
    generate_random_password ⟨3, false, false, true, false, false⟩
      [0, 1, 0, 1, 1] = .ok (some "001") ∧
    ¬ List.Chain' (· ≠ ·) ("001".data) := by
  refine ⟨rfl, fun h => ?_⟩
  have h' : List.Chain' (· ≠ ·) ['0', '0', '1'] := h
  exact (List.chain'_cons.mp h').1 rfl

/-! ## C6: Shannon entropy -/

theorem list_toFinset_dedup (l : List Char) : l.dedup.toFinset = l.toFinset := by
  ext a
  simp [List.mem_toFinset, List.mem_dedup]

/-- C6: `calculate_entropy` computes the Shannon entropy
−Σ p·log2(p) of the character-frequency distribution of its input; in
particular it is 0 on the empty string, 0 on any constant string, and
log2(N) on any length-N string of pairwise distinct characters. -/
theorem calculate_entropy_spec :
    (∀ password : String, calculate_entropy password = shannonEntropy password) ∧
    calculate_entropy "" = 0 ∧
    (∀ (n : Nat) (c : Char),
      calculate_entropy (String.mk (List.replicate n c)) = 0) ∧
    (∀ l : List Char, l.Nodup → l ≠ [] →
      calculate_entropy (String.mk l) = Real.logb 2 l.length) := by
  refine ⟨?_, ?_, ?_, ?_⟩
  · intro s
    unfold calculate_entropy shannonEntropy
    by_cases hd : s.data = []
    · rw [if_pos hd, hd]
      simp
    · rw [if_neg hd]
      rw [← list_toFinset_dedup s.data]
      rw [List.sum_toFinset _ (List.nodup_dedup s.data)]
  · simp [calculate_entropy]
  · intro n c
    cases n with
    | zero => simp [calculate_entropy]
    | succ m =>
      unfold calculate_entropy
      rw [if_neg (show ¬(String.mk (List.replicate (m + 1) c)).data = [] by
        simp)]
      rw [show (String.mk (List.replicate (m + 1) c)).data =
        List.replicate (m + 1) c from rfl]
      rw [List.replicate_dedup (Nat.succ_ne_zero m)]
      have hq : ((m : ℝ) + 1) / ((m : ℝ) + 1) = 1 := div_self (by positivity)
      simp [List.count_replicate_self, hq, Real.logb_one]
  · intro l hnd hne
    have hN : (l.length : ℝ) ≠ 0 := by
      have := List.length_pos.mpr hne
      positivity
    unfold calculate_entropy
    rw [if_neg (show ¬(String.mk l).data = [] from hne)]
    rw [show (String.mk l).data = l from rfl]
    rw [hnd.dedup]
    have hmap : (l.map (fun c =>
        let p : ℝ := (l.count c : ℝ) / (l.length : ℝ)
        p * Real.logb 2 p)) =
        List.replicate l.length
          ((l.length : ℝ)⁻¹ * Real.logb 2 ((l.length : ℝ)⁻¹)) := by
      rw [List.map_congr_left (g := fun _ =>
          ((l.length : ℝ)⁻¹ * Real.logb 2 ((l.length : ℝ)⁻¹))) ?_]
      · exact List.map_const' l _
      · intro c hc
        have h1 : (l.count c : ℝ) = 1 := by
          rw [List.count_eq_one_of_mem hnd hc]
          norm_num
        show (l.count c : ℝ) / (l.length : ℝ) *
            Real.logb 2 ((l.count c : ℝ) / (l.length : ℝ)) = _
        rw [h1, one_div]
    rw [hmap, List.sum_replicate, nsmul_eq_mul, Real.logb_inv]
    rw [← mul_assoc, mul_inv_cancel₀ hN, one_mul, neg_neg]

/-- Witness for C6: a three-character all-distinct string has entropy
log2(3). -/
theorem calculate_entropy_spec_witness :
    calculate_entropy (String.mk ['a', 'b', 'c']) = Real.logb 2 3 := by
  have h := calculate_entropy_spec.2.2.2 ['a', 'b', 'c'] (by decide) (by decide)
  simpa using h

end ClatShield
